import Mathlib

set_option maxRecDepth 100000

/-
Verification of the change-to-element diffing core of
`.github/scripts/analyze_code_changes.py`.

The structural parser (tree-sitter) and the revision store (git) are external
collaborators: their outputs (per-file element lists, `git diff --name-status`
lines) appear here as inputs of the embedded functions.  Everything after that
boundary — element identity, the element database, the change classifier and
the report assembler — is translated directly from the source.
-/

set_option autoImplicit false

namespace CodeChanges

/-! ## MD5 (`hashlib.md5(...).hexdigest()`)

`_generate_element_id` hashes the identity string with MD5 and renders the
lowercase hex digest.  This is a byte-for-byte embedding of MD5 (RFC 1321)
over `Nat` with explicit reduction mod `2^32`. -/

/-- Truncate to a 32-bit word. -/
def u32 (n : Nat) : Nat := n % 4294967296

/-- Per-round left-rotation amounts of MD5. -/
def md5s : List Nat :=
  [7, 12, 17, 22, 7, 12, 17, 22, 7, 12, 17, 22, 7, 12, 17, 22,
   5, 9, 14, 20, 5, 9, 14, 20, 5, 9, 14, 20, 5, 9, 14, 20,
   4, 11, 16, 23, 4, 11, 16, 23, 4, 11, 16, 23, 4, 11, 16, 23,
   6, 10, 15, 21, 6, 10, 15, 21, 6, 10, 15, 21, 6, 10, 15, 21]

/-- Round constants of MD5: `floor(2^32 * |sin(i+1)|)`. -/
def md5K : List Nat :=
  [0xd76aa478, 0xe8c7b756, 0x242070db, 0xc1bdceee, 0xf57c0faf, 0x4787c62a, 0xa8304613, 0xfd469501,
   0x698098d8, 0x8b44f7af, 0xffff5bb1, 0x895cd7be, 0x6b901122, 0xfd987193, 0xa679438e, 0x49b40821,
   0xf61e2562, 0xc040b340, 0x265e5a51, 0xe9b6c7aa, 0xd62f105d, 0x02441453, 0xd8a1e681, 0xe7d3fbc8,
   0x21e1cde6, 0xc33707d6, 0xf4d50d87, 0x455a14ed, 0xa9e3e905, 0xfcefa3f8, 0x676f02d9, 0x8d2a4c8a,
   0xfffa3942, 0x8771f681, 0x6d9d6122, 0xfde5380c, 0xa4beea44, 0x4bdecfa9, 0xf6bb4b60, 0xbebfbc70,
   0x289b7ec6, 0xeaa127fa, 0xd4ef3085, 0x04881d05, 0xd9d4d039, 0xe6db99e5, 0x1fa27cf8, 0xc4ac5665,
   0xf4292244, 0x432aff97, 0xab9423a7, 0xfc93a039, 0x655b59c3, 0x8f0ccc92, 0xffeff47d, 0x85845dd1,
   0x6fa87e4f, 0xfe2ce6e0, 0xa3014314, 0x4e0811a1, 0xf7537e82, 0xbd3af235, 0x2ad7d2bb, 0xeb86d391]

/-- 32-bit left rotation. -/
def rotl32 (x n : Nat) : Nat := u32 ((x <<< n) ||| (x >>> (32 - n)))

/-- 32-bit bitwise complement. -/
def not32 (x : Nat) : Nat := x ^^^ 0xFFFFFFFF

/-- Mixing function and message-word index for round `i` of MD5. -/
def md5F (i b c d : Nat) : Nat × Nat :=
  if i < 16 then ((b &&& c) ||| (not32 b &&& d), i % 16)
  else if i < 32 then ((d &&& b) ||| (not32 d &&& c), (5 * i + 1) % 16)
  else if i < 48 then (b ^^^ c ^^^ d, (3 * i + 5) % 16)
  else (c ^^^ (b ||| not32 d), (7 * i) % 16)

/-- The running 128-bit state of MD5 as four 32-bit words. -/
structure MD5Quad where
  a : Nat
  b : Nat
  c : Nat
  d : Nat
deriving DecidableEq

/-- One of the 64 rounds of an MD5 block computation. -/
def md5Round (M : List Nat) (st : MD5Quad) (i : Nat) : MD5Quad :=
  let fg := md5F i st.b st.c st.d
  let f := u32 (fg.1 + st.a + md5K.getD i 0 + M.getD fg.2 0)
  { a := st.d, b := u32 (st.b + rotl32 f (md5s.getD i 0)), c := st.b, d := st.c }

/-- A little-endian 32-bit word from four bytes. -/
def leWord (b0 b1 b2 b3 : Nat) : Nat := b0 + (b1 <<< 8) + (b2 <<< 16) + (b3 <<< 24)

/-- The sixteen little-endian message words of a 64-byte block. -/
def md5Words (block : List Nat) : List Nat :=
  (List.range 16).map fun j =>
    leWord (block.getD (4 * j) 0) (block.getD (4 * j + 1) 0)
      (block.getD (4 * j + 2) 0) (block.getD (4 * j + 3) 0)

/-- Process one 64-byte block. -/
def md5ProcessBlock (st : MD5Quad) (block : List Nat) : MD5Quad :=
  let M := md5Words block
  let r := (List.range 64).foldl (md5Round M) st
  { a := u32 (st.a + r.a), b := u32 (st.b + r.b), c := u32 (st.c + r.c), d := u32 (st.d + r.d) }

/-- Process `n` consecutive 64-byte blocks of `bytes`. -/
def md5Blocks : Nat → List Nat → MD5Quad → MD5Quad
  | 0, _, st => st
  | n + 1, bytes, st => md5Blocks n (bytes.drop 64) (md5ProcessBlock st (bytes.take 64))

/-- `k` little-endian bytes of `n`. -/
def leBytes : Nat → Nat → List Nat
  | _, 0 => []
  | n, k + 1 => n % 256 :: leBytes (n >>> 8) k

/-- MD5 padding: `0x80`, zeros to 56 mod 64, then the 64-bit bit length. -/
def md5Pad (msg : List Nat) : List Nat :=
  msg ++ 0x80 :: List.replicate ((56 + 64 - (msg.length + 1) % 64) % 64) 0
      ++ leBytes (8 * msg.length % 2 ^ 64) 8

/-- The fixed initial MD5 state. -/
def md5Init : MD5Quad := ⟨0x67452301, 0xefcdab89, 0x98badcfe, 0x10325476⟩

/-- The 16-byte MD5 digest of a byte sequence. -/
def md5Bytes (msg : List Nat) : List Nat :=
  let padded := md5Pad msg
  let st := md5Blocks (padded.length / 64) padded md5Init
  leBytes st.a 4 ++ leBytes st.b 4 ++ leBytes st.c 4 ++ leBytes st.d 4

/-- Lowercase hex digit. -/
def hexDigitChar (n : Nat) : Char := if n < 10 then Char.ofNat (48 + n) else Char.ofNat (87 + n)

/-- Two lowercase hex digits of a byte. -/
def byteToHexChars (b : Nat) : List Char := [hexDigitChar (b / 16), hexDigitChar (b % 16)]

/-- UTF-8 encoding of one character (Python `str.encode()`). -/
def utf8CharBytes (c : Char) : List Nat :=
  let n := c.toNat
  if n < 0x80 then [n]
  else if n < 0x800 then [0xC0 ||| (n >>> 6), 0x80 ||| (n &&& 0x3F)]
  else if n < 0x10000 then
    [0xE0 ||| (n >>> 12), 0x80 ||| ((n >>> 6) &&& 0x3F), 0x80 ||| (n &&& 0x3F)]
  else
    [0xF0 ||| (n >>> 18), 0x80 ||| ((n >>> 12) &&& 0x3F),
     0x80 ||| ((n >>> 6) &&& 0x3F), 0x80 ||| (n &&& 0x3F)]

/-- UTF-8 bytes of a string (Python `str.encode()`). -/
def strUtf8 (s : String) : List Nat :=
  s.data.foldr (fun c acc => utf8CharBytes c ++ acc) []

/-- `hashlib.md5(s.encode()).hexdigest()`. -/
def md5hex (s : String) : String :=
  String.mk ((md5Bytes (strUtf8 s)).foldr (fun b acc => byteToHexChars b ++ acc) [])

/-! ## Data model

A `CodeElement` is one entry of the list built by `_parse_file`; the structural
parser itself is an external collaborator, so element lists appear as inputs.
`_parse_file` stores the repository-relative path in `file_path`. -/

/-- One code element as produced by `_parse_file` (the dict literal at its end). -/
structure CodeElement where
  type : String
  name : String
  start_line : Nat
  end_line : Nat
  code : String
  file_path : String
deriving DecidableEq

/-- One entry of `code_elements_db["elements"]`.  The JSON object holds the four
content fields plus whichever of the revision annotations have been written;
absent keys are `none`. -/
structure ElementRecord where
  type : String
  name : String
  file_path : String
  code : String
  added_at : Option String
  last_modified : Option String
  deleted_at : Option String
deriving DecidableEq

/-- Python `dict` lookup (`d[k]` / `k in d`), on the association-list model of a
dict.  A Python dict never holds a key twice, so lookup of the first occurrence
is exact. -/
def dictGet? {α : Type} : List (String × α) → String → Option α
  | [], _ => none
  | (k', v) :: t, k => if k' == k then some v else dictGet? t k

/-- Python `dict` assignment `d[k] = v`: replace in place if the key is present,
else append at the end (insertion order is preserved). -/
def dictInsert {α : Type} : List (String × α) → String → α → List (String × α)
  | [], k, v => [(k, v)]
  | (k', w) :: t, k, v => if k' == k then (k, v) :: t else (k', w) :: dictInsert t k v

/-- `db["elements"][element_id]["deleted_at"] = after_commit`, guarded in the
source by `if element_id in db["elements"]`: annotate the record in place,
no-op when the identity is absent. -/
def markDeleted : List (String × ElementRecord) → String → String → List (String × ElementRecord)
  | [], _, _ => []
  | (k', r) :: t, k, ac =>
    if k' == k then (k', { r with deleted_at := some ac }) :: t else (k', r) :: markDeleted t k ac

/-- The dict literal written for an element classified modified
(`analyze_repo_changes`, modified branch). -/
def modifiedRecord (e : CodeElement) (after_commit : String) : ElementRecord :=
  { type := e.type, name := e.name, file_path := e.file_path, code := e.code,
    added_at := none, last_modified := some after_commit, deleted_at := none }

/-- The dict literal written for an element classified added. -/
def addedRecord (e : CodeElement) (after_commit : String) : ElementRecord :=
  { type := e.type, name := e.name, file_path := e.file_path, code := e.code,
    added_at := some after_commit, last_modified := none, deleted_at := none }

/-! ## Language lookup (`LANGUAGE_EXTENSIONS`, `_get_file_language`) -/

/-- The `LANGUAGE_EXTENSIONS` mapping. -/
def LANGUAGE_EXTENSIONS : List (String × String) :=
  [(".py", "python"), (".js", "javascript"), (".jsx", "javascript"), (".ts", "typescript"),
   (".tsx", "tsx"), (".java", "java"), (".go", "go"), (".rs", "rust")]

/-- Walk of `os.path.splitext` (posix): the extension starts at the last dot
that comes after the last separator and after at least one preceding non-dot
character of the basename.  `nonDot` records whether such a character has been
seen; `best` is the current candidate suffix. -/
def splitextExtAux : List Char → Bool → List Char → List Char
  | [], _, best => best
  | c :: rest, nonDot, best =>
    if c = '/' then splitextExtAux rest false []
    else if c = '.' then splitextExtAux rest nonDot (if nonDot then c :: rest else best)
    else splitextExtAux rest true best

/-- `os.path.splitext(file_path)[1]`. -/
def splitextExt (p : String) : String := String.mk (splitextExtAux p.data false [])

/-- `str.lower()` (all extensions involved are ASCII). -/
def strLower (s : String) : String := String.mk (s.data.map Char.toLower)

/-- `_get_file_language`: map the lowercased extension through
`LANGUAGE_EXTENSIONS.get`, `none` when unsupported. -/
def _get_file_language (file_path : String) : Option String :=
  let extension := strLower (splitextExt file_path)
  (LANGUAGE_EXTENSIONS.find? fun p => p.1 == extension).map (·.2)

/-! ## Element identity (`_generate_element_id`) -/

/-- `os.path.relpath(element['file_path'], self.repo_path)`: element paths are
stored repository-relative by `_parse_file` and `repo_path` is the process
working directory, so on the program's inputs this is the identity. -/
def relpathFromRepo (file_path : String) : String := file_path

/-- The identity string `f"{rel_path}:{element['name']}:{element['type']}"`. -/
def uniqueStr (e : CodeElement) : String :=
  relpathFromRepo e.file_path ++ ":" ++ e.name ++ ":" ++ e.type

/-- `_generate_element_id`: MD5 hex digest of the identity string. -/
def _generate_element_id (e : CodeElement) : String := md5hex (uniqueStr e)

/-- The dict comprehension `{self._generate_element_id(e): e for e in elements}`:
later elements overwrite earlier ones at a colliding key, the key keeps its
first-insertion position. -/
def buildMap (es : List CodeElement) : List (String × CodeElement) :=
  es.foldl (fun m e => dictInsert m (_generate_element_id e) e) []

/-! ## Affected files (`_get_affected_files`)

Git itself is external: the `git diff --name-status` output arrives as a list
of lines.  The per-line parsing and status dispatch is the source's. -/

/-- Python `str.split(sep)` for a one-character separator: no collapsing,
`"" -> [""]`. -/
def splitOnChar (sep : Char) : List Char → List (List Char)
  | [] => [[]]
  | c :: rest =>
    let r := splitOnChar sep rest
    if c = sep then [] :: r
    else
      match r with
      | h :: t => (c :: h) :: t
      | [] => [[c]]

/-- `line.split("\t")`. -/
def splitTab (line : String) : List String :=
  (splitOnChar '\t' line.data).map String.mk

/-- `os.path.join(self.repo_path, filename)` for the repository-relative file
names git emits. -/
def pathJoin (repo_path filename : String) : String := repo_path ++ "/" ++ filename

/-- `status.startswith("R")`. -/
def startsWithR (s : String) : Bool :=
  match s.data with
  | 'R' :: _ => true
  | [] => false
  | _ :: _ => false

/-- The `{"modified": [], "added": [], "deleted": []}` result of
`_get_affected_files`. -/
structure AffectedFiles where
  modified : List String
  added : List String
  deleted : List String
deriving DecidableEq

/-- The main loop of `_get_affected_files`: dispatch each `--name-status` line
on `M` / `A` / `D` / `R*`; a rename contributes the old path to `deleted` and
the new path to `added`. -/
def collectAffected (repo_path : String) : List String → AffectedFiles
  | [] => ⟨[], [], []⟩
  | line :: restLines =>
    let r := collectAffected repo_path restLines
    match splitTab line with
    | status :: filename :: restParts =>
      if status == "M" then { r with modified := pathJoin repo_path filename :: r.modified }
      else if status == "A" then { r with added := pathJoin repo_path filename :: r.added }
      else if status == "D" then { r with deleted := pathJoin repo_path filename :: r.deleted }
      else if startsWithR status then
        match restParts with
        | new_filename :: _ =>
          { r with deleted := pathJoin repo_path filename :: r.deleted,
                   added := pathJoin repo_path new_filename :: r.added }
        | [] => r
      else r
    | _ => r

/-- The empty-tree branch of `_get_affected_files` (the `before` revision is
not a commit): only `A` lines are collected, into `added`. -/
def collectAddedOnly (repo_path : String) : List String → AffectedFiles
  | [] => ⟨[], [], []⟩
  | line :: restLines =>
    let r := collectAddedOnly repo_path restLines
    match splitTab line with
    | status :: filename :: _ =>
      if status == "A" then { r with added := pathJoin repo_path filename :: r.added } else r
    | _ => r

/-- `_get_affected_files`: `beforeResolves` models whether
`self.repo.commit(before_commit)` succeeds. -/
def _get_affected_files (repo_path : String) (beforeResolves : Bool)
    (diffLines : List String) : AffectedFiles :=
  if beforeResolves then collectAffected repo_path diffLines
  else collectAddedOnly repo_path diffLines

/-! ## Change classifier (`analyze_repo_changes`)

Parsing and content retrieval are external, so each affected file arrives with
the element lists the structural parser produced for it: for a modified file
the parse at `before_commit` and the parse of the working tree, for an added
file the working-tree parse, for a deleted file the parse at `before_commit`.
A file absent or unparseable at a revision arrives as the empty list, exactly
as `_parse_file_at_commit` / `_parse_file` return `[]` on any failure. -/

/-- A modified file with its two snapshots. -/
structure ModifiedFile where
  path : String
  beforeElements : List CodeElement
  afterElements : List CodeElement
deriving DecidableEq

/-- An added file with its working-tree parse. -/
structure AddedFile where
  path : String
  elements : List CodeElement
deriving DecidableEq

/-- A deleted file with its parse at `before_commit`. -/
structure DeletedFile where
  path : String
  elements : List CodeElement
deriving DecidableEq

/-- Output of the added/modified loop over `after_elements_map.items()`. -/
structure AfterPassOut where
  added : List CodeElement
  modified : List CodeElement
  els : List (String × ElementRecord)
deriving DecidableEq

/-- Output of the deleted loop over `before_elements_map.items()`. -/
structure DeletedPassOut where
  deleted : List CodeElement
  els : List (String × ElementRecord)
deriving DecidableEq

/-- The `for element_id, after_element in after_elements_map.items()` loop.
The source sets `is_affected = True` for every element — every after-snapshot
element is a candidate, the advisory `affected_lines` set is never consulted.
An element also in `before_elements_map` is classified modified exactly when
the code differs (with a wholesale database upsert); an element absent from it
is classified added. -/
def classifyAfterItems (after_commit : String) (bmap : List (String × CodeElement)) :
    List (String × CodeElement) → List (String × ElementRecord) → AfterPassOut
  | [], els => ⟨[], [], els⟩
  | (element_id, after_element) :: rest, els =>
    match dictGet? bmap element_id with
    | some before_element =>
      if before_element.code ≠ after_element.code then
        let r := classifyAfterItems after_commit bmap rest
          (dictInsert els element_id (modifiedRecord after_element after_commit))
        ⟨r.added, after_element :: r.modified, r.els⟩
      else
        classifyAfterItems after_commit bmap rest els
    | none =>
      let r := classifyAfterItems after_commit bmap rest
        (dictInsert els element_id (addedRecord after_element after_commit))
      ⟨after_element :: r.added, r.modified, r.els⟩

/-- The `for element_id, before_element in before_elements_map.items()` loop:
an identity absent from `after_elements_map` is classified deleted and its
database record, when present, is annotated with `deleted_at`. -/
def classifyDeletedItems (after_commit : String) (amap : List (String × CodeElement)) :
    List (String × CodeElement) → List (String × ElementRecord) → DeletedPassOut
  | [], els => ⟨[], els⟩
  | (element_id, before_element) :: rest, els =>
    if (dictGet? amap element_id).isSome then
      classifyDeletedItems after_commit amap rest els
    else
      let r := classifyDeletedItems after_commit amap rest (markDeleted els element_id after_commit)
      ⟨before_element :: r.deleted, r.els⟩

/-- Per-file output of a modified-file pass. -/
structure FilePassOut where
  added : List CodeElement
  modified : List CodeElement
  deleted : List CodeElement
  els : List (String × ElementRecord)
deriving DecidableEq

/-- One iteration of the `for file_path in affected_files["modified"]` loop:
skip the file when its extension has no language or the language is not
loaded; otherwise compute the (advisory, unused) affected lines, build the two
identity maps and run the two classification loops. -/
def processModifiedFile (languages : List String) (_before_commit after_commit : String)
    (affected_lines : List Nat) (f : ModifiedFile)
    (els : List (String × ElementRecord)) : FilePassOut :=
  match _get_file_language f.path with
  | none => ⟨[], [], [], els⟩
  | some lang_name =>
    if languages.contains lang_name then
      let _affected_lines := affected_lines
      let before_elements_map := buildMap f.beforeElements
      let after_elements_map := buildMap f.afterElements
      let r1 := classifyAfterItems after_commit before_elements_map after_elements_map els
      let r2 := classifyDeletedItems after_commit after_elements_map before_elements_map r1.els
      ⟨r1.added, r1.modified, r2.deleted, r2.els⟩
    else ⟨[], [], [], els⟩

/-- Output of an added-file or deleted-file pass. -/
structure ListPassOut where
  elems : List CodeElement
  els : List (String × ElementRecord)
deriving DecidableEq

/-- The `for element in elements` body of the added-files loop: every element
of the new file is classified added and upserted with `added_at`. -/
def addElements (after_commit : String) :
    List CodeElement → List (String × ElementRecord) → ListPassOut
  | [], els => ⟨[], els⟩
  | element :: rest, els =>
    let element_id := _generate_element_id element
    let r := addElements after_commit rest (dictInsert els element_id (addedRecord element after_commit))
    ⟨element :: r.elems, r.els⟩

/-- The `for element in elements` body of the deleted-files loop: every element
of the removed file is classified deleted and its record, when present, is
annotated with `deleted_at`. -/
def deleteElements (after_commit : String) :
    List CodeElement → List (String × ElementRecord) → ListPassOut
  | [], els => ⟨[], els⟩
  | element :: rest, els =>
    let element_id := _generate_element_id element
    let r := deleteElements after_commit rest (markDeleted els element_id after_commit)
    ⟨element :: r.elems, r.els⟩

/-- One iteration of the `for file_path in affected_files["added"]` loop. -/
def processAddedFile (languages : List String) (after_commit : String) (f : AddedFile)
    (els : List (String × ElementRecord)) : ListPassOut :=
  match _get_file_language f.path with
  | none => ⟨[], els⟩
  | some lang_name =>
    if languages.contains lang_name then addElements after_commit f.elements els
    else ⟨[], els⟩

/-- One iteration of the `for file_path in affected_files["deleted"]` loop. -/
def processDeletedFile (languages : List String) (after_commit : String) (f : DeletedFile)
    (els : List (String × ElementRecord)) : ListPassOut :=
  match _get_file_language f.path with
  | none => ⟨[], els⟩
  | some lang_name =>
    if languages.contains lang_name then deleteElements after_commit f.elements els
    else ⟨[], els⟩

/-- The modified-files loop; the global `added_elements` / `modified_elements`
/ `deleted_elements` lists grow in file order. -/
def processModifiedFiles (languages : List String) (before_commit after_commit : String)
    (affected_lines_of : String → List Nat) :
    List ModifiedFile → List (String × ElementRecord) → FilePassOut
  | [], els => ⟨[], [], [], els⟩
  | f :: fs, els =>
    let r1 := processModifiedFile languages before_commit after_commit
      (affected_lines_of f.path) f els
    let r2 := processModifiedFiles languages before_commit after_commit affected_lines_of fs r1.els
    ⟨r1.added ++ r2.added, r1.modified ++ r2.modified, r1.deleted ++ r2.deleted, r2.els⟩

/-- The added-files loop. -/
def processAddedFiles (languages : List String) (after_commit : String) :
    List AddedFile → List (String × ElementRecord) → ListPassOut
  | [], els => ⟨[], els⟩
  | f :: fs, els =>
    let r1 := processAddedFile languages after_commit f els
    let r2 := processAddedFiles languages after_commit fs r1.els
    ⟨r1.elems ++ r2.elems, r2.els⟩

/-- The deleted-files loop. -/
def processDeletedFiles (languages : List String) (after_commit : String) :
    List DeletedFile → List (String × ElementRecord) → ListPassOut
  | [], els => ⟨[], els⟩
  | f :: fs, els =>
    let r1 := processDeletedFile languages after_commit f els
    let r2 := processDeletedFiles languages after_commit fs r1.els
    ⟨r1.elems ++ r2.elems, r2.els⟩

/-! ## Report assembly and the whole run -/

/-- The persisted element database: `{"elements": ..., "metadata":
{"last_processed_commit": ...}}`. -/
structure Database where
  elements : List (String × ElementRecord)
  last_processed_commit : Option String
deriving DecidableEq

/-- The `affected_elements` block of the report. -/
structure ChangeSet where
  added : List CodeElement
  modified : List CodeElement
  deleted : List CodeElement
deriving DecidableEq

/-- The `stats` block of the report. -/
structure Stats where
  added : Nat
  modified : Nat
  deleted : Nat
  total_elements : Nat
deriving DecidableEq

/-- The `metadata` block of the report. -/
structure ReportMetadata where
  repository : String
  before : String
  after : String
  timestamp : String
deriving DecidableEq

/-- The report written to `change_report_<sha>.json`. -/
structure Report where
  affected_elements : ChangeSet
  stats : Stats
  metadata : ReportMetadata
deriving DecidableEq

/-- The inputs of one run of `analyze_repo_changes`, at the external boundary:
the resolved commit range, the affected files with their parses, the loaded
tree-sitter languages and the report metadata.  `repository` is
`os.path.basename(self.repo_path)` and `timestamp` the head commit time. -/
structure RunInput where
  before_commit : String
  after_commit : String
  modifiedFiles : List ModifiedFile
  addedFiles : List AddedFile
  deletedFiles : List DeletedFile
  languages : List String
  repository : String
  timestamp : String
deriving DecidableEq

/-- `analyze_repo_changes`: process the modified, added and deleted files in
order against the loaded database, stamp `last_processed_commit`, and return
the report (also persisted) together with the saved database.
`affected_lines_of` supplies the `_get_affected_lines` result per modified
file; the source computes it and never uses it. -/
def analyze_repo_changes (inp : RunInput) (affected_lines_of : String → List Nat)
    (db : Database) : Report × Database :=
  let rMod := processModifiedFiles inp.languages inp.before_commit inp.after_commit
    affected_lines_of inp.modifiedFiles db.elements
  let rAdd := processAddedFiles inp.languages inp.after_commit inp.addedFiles rMod.els
  let rDel := processDeletedFiles inp.languages inp.after_commit inp.deletedFiles rAdd.els
  let db' : Database := { elements := rDel.els, last_processed_commit := some inp.after_commit }
  let added_elements := rMod.added ++ rAdd.elems
  let modified_elements := rMod.modified
  let deleted_elements := rMod.deleted ++ rDel.elems
  ({ affected_elements :=
       { added := added_elements, modified := modified_elements, deleted := deleted_elements },
     stats :=
       { added := added_elements.length, modified := modified_elements.length,
         deleted := deleted_elements.length, total_elements := db'.elements.length },
     metadata :=
       { repository := inp.repository, before := inp.before_commit,
         after := inp.after_commit, timestamp := inp.timestamp } }, db')

/-- The run input produced for a file renamed from `oldPath` to `newPath` with
byte-identical content: `_get_affected_files` turns the `R` diff line into one
entry of `deleted` (old path) and one of `added` (new path), so the run sees a
deleted-file pass over the parse at `before` (elements stored under the old
relative path) and an added-file pass over the working-tree parse, which
yields the same elements except that `_parse_file` stores the new relative
path. -/
def renameInput (bc ac oldPath newPath newRel : String) (es : List CodeElement)
    (languages : List String) (repo ts : String) : RunInput :=
  { before_commit := bc, after_commit := ac,
    modifiedFiles := [],
    addedFiles := [⟨newPath, es.map fun e => { e with file_path := newRel }⟩],
    deletedFiles := [⟨oldPath, es⟩],
    languages := languages, repository := repo, timestamp := ts }

/-- Growth of the element database: the entry count does not decrease and no
key disappears. -/
def dbGrows (els els' : List (String × ElementRecord)) : Prop :=
  els.length ≤ els'.length ∧
    ∀ id, (dictGet? els id).isSome = true → (dictGet? els' id).isSome = true

/-- A concrete one-file run: `a.py` is modified and the sole function `foo`
has different bodies in the `before` and `after` snapshots. -/
def oneEditInput : RunInput :=
  { before_commit := "b", after_commit := "c",
    modifiedFiles := [⟨"a.py", [⟨"function", "foo", 1, 2, "def foo(): return 1", "a.py"⟩],
      [⟨"function", "foo", 1, 2, "def foo(): return 2", "a.py"⟩]⟩],
    addedFiles := [], deletedFiles := [], languages := ["python"],
    repository := "repo", timestamp := "t" }

/-- The empty element database (`_load_code_elements_db` without prior state). -/
def emptyDb : Database := ⟨[], none⟩

/-- An affected-lines oracle returning the empty set for every file. -/
def noLines : String → List Nat := fun _ => []

/-- A concrete modified file whose sole element has a byte-identical body in
both snapshots (only the line numbers moved). -/
def sameBodyFile : ModifiedFile :=
  ⟨"a.py", [⟨"function", "foo", 1, 2, "def foo(): pass", "a.py"⟩],
    [⟨"function", "foo", 5, 6, "def foo(): pass", "a.py"⟩]⟩

/-- The identity the source computes for `foo` in `a.py`. -/
def fooId : String := md5hex "a.py:foo:function"

/-! ## Validation of the MD5 embedding against RFC 1321 test vectors -/

theorem md5hex_rfc_empty : md5hex "" = "d41d8cd98f00b204e9800998ecf8427e" := by decide

theorem md5hex_rfc_abc : md5hex "abc" = "900150983cd24fb0d6963f7d28e17f72" := by decide

/-! ## Dictionary lemmas -/

theorem dictGet?_insert {α : Type} (m : List (String × α)) (k : String) (v : α) (id : String) :
    dictGet? (dictInsert m k v) id = if k == id then some v else dictGet? m id := by
  induction m with
  | nil => simp [dictInsert, dictGet?]
  | cons hd t ih =>
    obtain ⟨k', w⟩ := hd
    by_cases h : k' = k
    · subst h
      by_cases h2 : k' = id <;> simp [dictInsert, dictGet?, h2]
    · by_cases h2 : k' = id
      · subst h2
        have hki : ¬k = k' := fun hh => h hh.symm
        simp [dictInsert, dictGet?, h, hki]
      · simp [dictInsert, dictGet?, h, h2, ih]

theorem dictGet?_markDeleted (m : List (String × ElementRecord)) (k ac id : String) :
    dictGet? (markDeleted m k ac) id =
      if k == id then (dictGet? m id).map (fun r => { r with deleted_at := some ac })
      else dictGet? m id := by
  induction m with
  | nil => simp [markDeleted, dictGet?]
  | cons hd t ih =>
    obtain ⟨k', r⟩ := hd
    by_cases h : k' = k
    · subst h
      by_cases h2 : k' = id <;> simp [markDeleted, dictGet?, h2]
    · by_cases h2 : k' = id
      · subst h2
        have hki : ¬k = k' := fun hh => h hh.symm
        simp [markDeleted, dictGet?, h, hki]
      · simp [markDeleted, dictGet?, h, h2, ih]

theorem length_dictInsert {α : Type} (m : List (String × α)) (k : String) (v : α) :
    m.length ≤ (dictInsert m k v).length := by
  induction m with
  | nil => simp [dictInsert]
  | cons hd t ih =>
    obtain ⟨k', w⟩ := hd
    by_cases h : k' = k
    · simp [dictInsert, h]
    · simp only [dictInsert, h, if_neg, beq_iff_eq, if_false, List.length_cons]
      omega

theorem length_markDeleted (m : List (String × ElementRecord)) (k ac : String) :
    (markDeleted m k ac).length = m.length := by
  induction m with
  | nil => rfl
  | cons hd t ih =>
    obtain ⟨k', r⟩ := hd
    by_cases h : k' = k <;> simp [markDeleted, h, ih]

theorem mem_dictInsert {α : Type} (m : List (String × α)) (k : String) (v : α)
    (q : String × α) (h : q ∈ dictInsert m k v) : q = (k, v) ∨ q ∈ m := by
  induction m with
  | nil => simpa [dictInsert] using h
  | cons hd t ih =>
    obtain ⟨k', w⟩ := hd
    by_cases hk : k' = k
    · simp only [dictInsert, hk] at h
      simp at h
      rcases h with h | h
      · exact Or.inl (by simp [h])
      · exact Or.inr (by simp [h])
    · simp only [dictInsert, hk] at h
      simp [hk] at h
      rcases h with h | h
      · exact Or.inr (by simp [h])
      · rcases ih h with h2 | h2
        · exact Or.inl h2
        · exact Or.inr (by simp [h2])

theorem dictGet?_isSome_of_mem {α : Type} (m : List (String × α)) (k : String) (v : α)
    (h : (k, v) ∈ m) : (dictGet? m k).isSome = true := by
  induction m with
  | nil => simp at h
  | cons hd t ih =>
    obtain ⟨k', w⟩ := hd
    by_cases hk : k' = k
    · simp [dictGet?, hk]
    · simp at h
      rcases h with h | h
      · exact absurd h.1.symm hk
      · simp [dictGet?, hk, ih h]

theorem dictGet?_mem {α : Type} (m : List (String × α)) (k : String) (v : α)
    (h : dictGet? m k = some v) : (k, v) ∈ m := by
  induction m with
  | nil => simp [dictGet?] at h
  | cons hd t ih =>
    obtain ⟨k', w⟩ := hd
    by_cases hk : k' = k
    · subst hk
      simp [dictGet?] at h
      simp [h]
    · simp [dictGet?, hk] at h
      simp [ih h]

theorem mem_dictGet? {α : Type} (m : List (String × α)) (k : String) (v : α)
    (hnd : (m.map Prod.fst).Nodup) (h : (k, v) ∈ m) : dictGet? m k = some v := by
  induction m with
  | nil => simp at h
  | cons hd t ih =>
    obtain ⟨k', w⟩ := hd
    rw [List.map_cons, List.nodup_cons] at hnd
    rcases List.mem_cons.mp h with h1 | h1
    · have hk : k' = k := (congrArg Prod.fst h1).symm
      have hv : w = v := (congrArg Prod.snd h1).symm
      simp [dictGet?, hk, hv]
    · by_cases hk : k' = k
      · subst hk
        exact absurd (List.mem_map.mpr ⟨(k', v), h1, rfl⟩) hnd.1
      · simp [dictGet?, hk, ih hnd.2 h1]

theorem keys_dictInsert_sub {α : Type} (m : List (String × α)) (k : String) (v : α)
    (x : String) (h : x ∈ (dictInsert m k v).map Prod.fst) :
    x = k ∨ x ∈ m.map Prod.fst := by
  simp at h
  obtain ⟨b, hb⟩ := h
  rcases mem_dictInsert m k v (x, b) hb with h2 | h2
  · exact Or.inl (by simpa using congrArg Prod.fst h2)
  · exact Or.inr (by simp; exact ⟨b, h2⟩)

theorem keys_nodup_dictInsert {α : Type} (m : List (String × α)) (k : String) (v : α)
    (hnd : (m.map Prod.fst).Nodup) : ((dictInsert m k v).map Prod.fst).Nodup := by
  induction m with
  | nil => simp [dictInsert]
  | cons hd t ih =>
    obtain ⟨k', w⟩ := hd
    simp at hnd
    by_cases hk : k' = k
    · subst hk
      simp [dictInsert]
      exact ⟨fun b hb => hnd.1 b hb, hnd.2⟩
    · simp [dictInsert, hk]
      refine ⟨fun b hb => ?_, ih hnd.2⟩
      rcases mem_dictInsert t k v (k', b) hb with h2 | h2
      · exact hk (by simpa using congrArg Prod.fst h2)
      · exact hnd.1 b h2

/-! ## Lemmas about the identity maps (`buildMap`) -/

theorem mem_foldl_insert (es : List CodeElement) (m : List (String × CodeElement))
    (q : String × CodeElement)
    (h : q ∈ es.foldl (fun m e => dictInsert m (_generate_element_id e) e) m) :
    (q.1 = _generate_element_id q.2 ∧ q.2 ∈ es) ∨ q ∈ m := by
  induction es generalizing m with
  | nil => exact Or.inr h
  | cons e es ih =>
    simp only [List.foldl_cons] at h
    rcases ih _ h with h1 | h1
    · exact Or.inl ⟨h1.1, List.mem_cons_of_mem _ h1.2⟩
    · rcases mem_dictInsert m (_generate_element_id e) e q h1 with h2 | h2
      · subst h2
        exact Or.inl ⟨rfl, List.mem_cons_self _ _⟩
      · exact Or.inr h2

theorem buildMap_mem (es : List CodeElement) (q : String × CodeElement)
    (h : q ∈ buildMap es) : q.1 = _generate_element_id q.2 ∧ q.2 ∈ es := by
  rcases mem_foldl_insert es [] q h with h1 | h1
  · exact h1
  · simp at h1

theorem buildMap_keys_nodup (es : List CodeElement) : ((buildMap es).map Prod.fst).Nodup := by
  have aux : ∀ (es : List CodeElement) (m : List (String × CodeElement)),
      (m.map Prod.fst).Nodup →
      ((es.foldl (fun m e => dictInsert m (_generate_element_id e) e) m).map Prod.fst).Nodup := by
    intro es
    induction es with
    | nil => exact fun m h => h
    | cons e es ih => exact fun m h => ih _ (keys_nodup_dictInsert m _ e h)
  exact aux es [] (by simp)

theorem dictGet?_foldl_insert (es : List CodeElement) (m : List (String × CodeElement))
    (id : String) :
    dictGet? (es.foldl (fun m e => dictInsert m (_generate_element_id e) e) m) id =
      (es.reverse.find? fun e => _generate_element_id e == id).or (dictGet? m id) := by
  induction es generalizing m with
  | nil => simp
  | cons e es ih =>
    cases hf : es.reverse.find? (fun x => _generate_element_id x == id) with
    | some x =>
      simp [List.foldl_cons, List.find?_append, ih, hf, Option.or]
    | none =>
      by_cases hc : _generate_element_id e = id
      · simp [List.foldl_cons, List.find?_append, ih, hf, dictGet?_insert, hc, Option.or]
      · simp [List.foldl_cons, List.find?_append, ih, hf, dictGet?_insert, hc, Option.or]

/-! ## Database growth through the classification passes -/

theorem dbGrows_refl (els : List (String × ElementRecord)) : dbGrows els els :=
  ⟨le_refl _, fun _ h => h⟩

theorem dbGrows_trans {a b c : List (String × ElementRecord)}
    (h1 : dbGrows a b) (h2 : dbGrows b c) : dbGrows a c :=
  ⟨le_trans h1.1 h2.1, fun id h => h2.2 id (h1.2 id h)⟩

theorem dbGrows_insert (els : List (String × ElementRecord)) (k : String) (v : ElementRecord) :
    dbGrows els (dictInsert els k v) := by
  refine ⟨length_dictInsert els k v, fun id h => ?_⟩
  rw [dictGet?_insert]
  split
  · rfl
  · exact h

theorem dbGrows_markDeleted (els : List (String × ElementRecord)) (k ac : String) :
    dbGrows els (markDeleted els k ac) := by
  refine ⟨le_of_eq (length_markDeleted els k ac).symm, fun id h => ?_⟩
  rw [dictGet?_markDeleted]
  split
  · simpa using h
  · exact h

theorem classifyAfterItems_grows (ac : String) (bmap : List (String × CodeElement)) :
    ∀ (items : List (String × CodeElement)) (els : List (String × ElementRecord)),
      dbGrows els (classifyAfterItems ac bmap items els).els := by
  intro items
  induction items with
  | nil => exact fun els => dbGrows_refl els
  | cons hd rest ih =>
    intro els
    obtain ⟨element_id, a⟩ := hd
    cases hb : dictGet? bmap element_id with
    | some b =>
      by_cases hc : b.code = a.code
      · simpa [classifyAfterItems, hb, hc] using ih els
      · have h := dbGrows_trans (dbGrows_insert els element_id (modifiedRecord a ac)) (ih _)
        simpa [classifyAfterItems, hb, hc] using h
    | none =>
      have h := dbGrows_trans (dbGrows_insert els element_id (addedRecord a ac)) (ih _)
      simpa [classifyAfterItems, hb] using h

theorem classifyDeletedItems_grows (ac : String) (amap : List (String × CodeElement)) :
    ∀ (items : List (String × CodeElement)) (els : List (String × ElementRecord)),
      dbGrows els (classifyDeletedItems ac amap items els).els := by
  intro items
  induction items with
  | nil => exact fun els => dbGrows_refl els
  | cons hd rest ih =>
    intro els
    obtain ⟨element_id, b⟩ := hd
    by_cases hs : (dictGet? amap element_id).isSome = true
    · simpa [classifyDeletedItems, hs] using ih els
    · have h := dbGrows_trans (dbGrows_markDeleted els element_id ac) (ih _)
      simpa [classifyDeletedItems, hs] using h

theorem addElements_grows (ac : String) :
    ∀ (es : List CodeElement) (els : List (String × ElementRecord)),
      dbGrows els (addElements ac es els).els := by
  intro es
  induction es with
  | nil => exact fun els => dbGrows_refl els
  | cons e es ih =>
    intro els
    have h := dbGrows_trans (dbGrows_insert els (_generate_element_id e) (addedRecord e ac)) (ih _)
    simpa [addElements] using h

theorem deleteElements_grows (ac : String) :
    ∀ (es : List CodeElement) (els : List (String × ElementRecord)),
      dbGrows els (deleteElements ac es els).els := by
  intro es
  induction es with
  | nil => exact fun els => dbGrows_refl els
  | cons e es ih =>
    intro els
    have h := dbGrows_trans (dbGrows_markDeleted els (_generate_element_id e) ac) (ih _)
    simpa [deleteElements] using h

theorem processModifiedFile_grows (languages : List String) (bc ac : String) (al : List Nat)
    (f : ModifiedFile) (els : List (String × ElementRecord)) :
    dbGrows els (processModifiedFile languages bc ac al f els).els := by
  cases hl : _get_file_language f.path with
  | none => simpa [processModifiedFile, hl] using dbGrows_refl els
  | some lang =>
    by_cases hm : lang ∈ languages
    · have h1 := classifyAfterItems_grows ac (buildMap f.beforeElements)
        (buildMap f.afterElements) els
      have h2 := classifyDeletedItems_grows ac (buildMap f.afterElements)
        (buildMap f.beforeElements)
        (classifyAfterItems ac (buildMap f.beforeElements) (buildMap f.afterElements) els).els
      simpa [processModifiedFile, hl, hm] using dbGrows_trans h1 h2
    · simpa [processModifiedFile, hl, hm] using dbGrows_refl els

theorem processAddedFile_grows (languages : List String) (ac : String) (f : AddedFile)
    (els : List (String × ElementRecord)) :
    dbGrows els (processAddedFile languages ac f els).els := by
  cases hl : _get_file_language f.path with
  | none => simpa [processAddedFile, hl] using dbGrows_refl els
  | some lang =>
    by_cases hm : lang ∈ languages
    · simpa [processAddedFile, hl, hm] using addElements_grows ac f.elements els
    · simpa [processAddedFile, hl, hm] using dbGrows_refl els

theorem processDeletedFile_grows (languages : List String) (ac : String) (f : DeletedFile)
    (els : List (String × ElementRecord)) :
    dbGrows els (processDeletedFile languages ac f els).els := by
  cases hl : _get_file_language f.path with
  | none => simpa [processDeletedFile, hl] using dbGrows_refl els
  | some lang =>
    by_cases hm : lang ∈ languages
    · simpa [processDeletedFile, hl, hm] using deleteElements_grows ac f.elements els
    · simpa [processDeletedFile, hl, hm] using dbGrows_refl els

theorem processModifiedFiles_grows (languages : List String) (bc ac : String)
    (alOf : String → List Nat) :
    ∀ (fs : List ModifiedFile) (els : List (String × ElementRecord)),
      dbGrows els (processModifiedFiles languages bc ac alOf fs els).els := by
  intro fs
  induction fs with
  | nil => exact fun els => dbGrows_refl els
  | cons f fs ih =>
    intro els
    have h1 := processModifiedFile_grows languages bc ac (alOf f.path) f els
    have h2 := ih (processModifiedFile languages bc ac (alOf f.path) f els).els
    simpa [processModifiedFiles] using dbGrows_trans h1 h2

theorem processAddedFiles_grows (languages : List String) (ac : String) :
    ∀ (fs : List AddedFile) (els : List (String × ElementRecord)),
      dbGrows els (processAddedFiles languages ac fs els).els := by
  intro fs
  induction fs with
  | nil => exact fun els => dbGrows_refl els
  | cons f fs ih =>
    intro els
    have h1 := processAddedFile_grows languages ac f els
    have h2 := ih (processAddedFile languages ac f els).els
    simpa [processAddedFiles] using dbGrows_trans h1 h2

theorem processDeletedFiles_grows (languages : List String) (ac : String) :
    ∀ (fs : List DeletedFile) (els : List (String × ElementRecord)),
      dbGrows els (processDeletedFiles languages ac fs els).els := by
  intro fs
  induction fs with
  | nil => exact fun els => dbGrows_refl els
  | cons f fs ih =>
    intro els
    have h1 := processDeletedFile_grows languages ac f els
    have h2 := ih (processDeletedFile languages ac f els).els
    simpa [processDeletedFiles] using dbGrows_trans h1 h2

theorem analyze_grows (inp : RunInput) (alOf : String → List Nat) (db : Database) :
    dbGrows db.elements (analyze_repo_changes inp alOf db).2.elements := by
  have h1 := processModifiedFiles_grows inp.languages inp.before_commit inp.after_commit alOf
    inp.modifiedFiles db.elements
  have h2 := processAddedFiles_grows inp.languages inp.after_commit inp.addedFiles
    (processModifiedFiles inp.languages inp.before_commit inp.after_commit alOf
      inp.modifiedFiles db.elements).els
  have h3 := processDeletedFiles_grows inp.languages inp.after_commit inp.deletedFiles
    (processAddedFiles inp.languages inp.after_commit inp.addedFiles
      (processModifiedFiles inp.languages inp.before_commit inp.after_commit alOf
        inp.modifiedFiles db.elements).els).els
  simpa [analyze_repo_changes] using dbGrows_trans (dbGrows_trans h1 h2) h3

/-! ## The classification lists do not depend on the database

The added/modified/deleted lists are computed from the before/after snapshots
alone; the database is only written, never read, by the classification. -/

theorem classifyAfterItems_lists_indep (ac : String) (bmap : List (String × CodeElement)) :
    ∀ (items : List (String × CodeElement)) (els1 els2 : List (String × ElementRecord)),
      (classifyAfterItems ac bmap items els1).added =
        (classifyAfterItems ac bmap items els2).added ∧
      (classifyAfterItems ac bmap items els1).modified =
        (classifyAfterItems ac bmap items els2).modified := by
  intro items
  induction items with
  | nil => exact fun els1 els2 => ⟨rfl, rfl⟩
  | cons hd rest ih =>
    intro els1 els2
    obtain ⟨element_id, a⟩ := hd
    cases hb : dictGet? bmap element_id with
    | some b =>
      by_cases hc : b.code = a.code
      · simpa [classifyAfterItems, hb, hc] using ih els1 els2
      · simpa [classifyAfterItems, hb, hc] using
          ih (dictInsert els1 element_id (modifiedRecord a ac))
            (dictInsert els2 element_id (modifiedRecord a ac))
    | none =>
      simpa [classifyAfterItems, hb] using
        ih (dictInsert els1 element_id (addedRecord a ac))
          (dictInsert els2 element_id (addedRecord a ac))

theorem classifyDeletedItems_lists_indep (ac : String) (amap : List (String × CodeElement)) :
    ∀ (items : List (String × CodeElement)) (els1 els2 : List (String × ElementRecord)),
      (classifyDeletedItems ac amap items els1).deleted =
        (classifyDeletedItems ac amap items els2).deleted := by
  intro items
  induction items with
  | nil => exact fun els1 els2 => rfl
  | cons hd rest ih =>
    intro els1 els2
    obtain ⟨element_id, b⟩ := hd
    by_cases hs : (dictGet? amap element_id).isSome = true
    · simpa [classifyDeletedItems, hs] using ih els1 els2
    · simpa [classifyDeletedItems, hs] using
        ih (markDeleted els1 element_id ac) (markDeleted els2 element_id ac)

theorem addElements_elems (ac : String) :
    ∀ (es : List CodeElement) (els : List (String × ElementRecord)),
      (addElements ac es els).elems = es := by
  intro es
  induction es with
  | nil => exact fun els => rfl
  | cons e es ih =>
    intro els
    simp [addElements, ih]

theorem deleteElements_elems (ac : String) :
    ∀ (es : List CodeElement) (els : List (String × ElementRecord)),
      (deleteElements ac es els).elems = es := by
  intro es
  induction es with
  | nil => exact fun els => rfl
  | cons e es ih =>
    intro els
    simp [deleteElements, ih]

theorem processModifiedFile_lists_indep (languages : List String) (bc ac : String)
    (al : List Nat) (f : ModifiedFile) (els1 els2 : List (String × ElementRecord)) :
    (processModifiedFile languages bc ac al f els1).added =
      (processModifiedFile languages bc ac al f els2).added ∧
    (processModifiedFile languages bc ac al f els1).modified =
      (processModifiedFile languages bc ac al f els2).modified ∧
    (processModifiedFile languages bc ac al f els1).deleted =
      (processModifiedFile languages bc ac al f els2).deleted := by
  cases hl : _get_file_language f.path with
  | none => simp [processModifiedFile, hl]
  | some lang =>
    by_cases hm : lang ∈ languages
    · have h1 := classifyAfterItems_lists_indep ac (buildMap f.beforeElements)
        (buildMap f.afterElements) els1 els2
      have h2 := classifyDeletedItems_lists_indep ac (buildMap f.afterElements)
        (buildMap f.beforeElements)
        (classifyAfterItems ac (buildMap f.beforeElements) (buildMap f.afterElements) els1).els
        (classifyAfterItems ac (buildMap f.beforeElements) (buildMap f.afterElements) els2).els
      simp only [processModifiedFile, hl]
      simp [hm]
      exact ⟨h1.1, h1.2, h2⟩
    · simp [processModifiedFile, hl, hm]

theorem processAddedFile_elems_indep (languages : List String) (ac : String) (f : AddedFile)
    (els1 els2 : List (String × ElementRecord)) :
    (processAddedFile languages ac f els1).elems = (processAddedFile languages ac f els2).elems := by
  cases hl : _get_file_language f.path with
  | none => simp [processAddedFile, hl]
  | some lang =>
    by_cases hm : lang ∈ languages
    · simp [processAddedFile, hl, hm, addElements_elems]
    · simp [processAddedFile, hl, hm]

theorem processDeletedFile_elems_indep (languages : List String) (ac : String) (f : DeletedFile)
    (els1 els2 : List (String × ElementRecord)) :
    (processDeletedFile languages ac f els1).elems =
      (processDeletedFile languages ac f els2).elems := by
  cases hl : _get_file_language f.path with
  | none => simp [processDeletedFile, hl]
  | some lang =>
    by_cases hm : lang ∈ languages
    · simp [processDeletedFile, hl, hm, deleteElements_elems]
    · simp [processDeletedFile, hl, hm]

theorem processModifiedFiles_lists_indep (languages : List String) (bc ac : String)
    (alOf : String → List Nat) :
    ∀ (fs : List ModifiedFile) (els1 els2 : List (String × ElementRecord)),
      (processModifiedFiles languages bc ac alOf fs els1).added =
        (processModifiedFiles languages bc ac alOf fs els2).added ∧
      (processModifiedFiles languages bc ac alOf fs els1).modified =
        (processModifiedFiles languages bc ac alOf fs els2).modified ∧
      (processModifiedFiles languages bc ac alOf fs els1).deleted =
        (processModifiedFiles languages bc ac alOf fs els2).deleted := by
  intro fs
  induction fs with
  | nil => exact fun els1 els2 => ⟨rfl, rfl, rfl⟩
  | cons f fs ih =>
    intro els1 els2
    have hf := processModifiedFile_lists_indep languages bc ac (alOf f.path) f els1 els2
    have hr := ih (processModifiedFile languages bc ac (alOf f.path) f els1).els
      (processModifiedFile languages bc ac (alOf f.path) f els2).els
    simp only [processModifiedFiles]
    exact ⟨by rw [hf.1, hr.1], by rw [hf.2.1, hr.2.1], by rw [hf.2.2, hr.2.2]⟩

theorem processAddedFiles_elems_indep (languages : List String) (ac : String) :
    ∀ (fs : List AddedFile) (els1 els2 : List (String × ElementRecord)),
      (processAddedFiles languages ac fs els1).elems =
        (processAddedFiles languages ac fs els2).elems := by
  intro fs
  induction fs with
  | nil => exact fun els1 els2 => rfl
  | cons f fs ih =>
    intro els1 els2
    have hf := processAddedFile_elems_indep languages ac f els1 els2
    have hr := ih (processAddedFile languages ac f els1).els (processAddedFile languages ac f els2).els
    simp only [processAddedFiles]
    rw [hf, hr]

theorem processDeletedFiles_elems_indep (languages : List String) (ac : String) :
    ∀ (fs : List DeletedFile) (els1 els2 : List (String × ElementRecord)),
      (processDeletedFiles languages ac fs els1).elems =
        (processDeletedFiles languages ac fs els2).elems := by
  intro fs
  induction fs with
  | nil => exact fun els1 els2 => rfl
  | cons f fs ih =>
    intro els1 els2
    have hf := processDeletedFile_elems_indep languages ac f els1 els2
    have hr := ih (processDeletedFile languages ac f els1).els
      (processDeletedFile languages ac f els2).els
    simp only [processDeletedFiles]
    rw [hf, hr]

theorem changeset_db_indep (inp : RunInput) (alOf : String → List Nat) (db1 db2 : Database) :
    (analyze_repo_changes inp alOf db1).1.affected_elements =
      (analyze_repo_changes inp alOf db2).1.affected_elements := by
  have hm := processModifiedFiles_lists_indep inp.languages inp.before_commit inp.after_commit
    alOf inp.modifiedFiles db1.elements db2.elements
  have ha := processAddedFiles_elems_indep inp.languages inp.after_commit inp.addedFiles
    (processModifiedFiles inp.languages inp.before_commit inp.after_commit alOf
      inp.modifiedFiles db1.elements).els
    (processModifiedFiles inp.languages inp.before_commit inp.after_commit alOf
      inp.modifiedFiles db2.elements).els
  have hd := processDeletedFiles_elems_indep inp.languages inp.after_commit inp.deletedFiles
    (processAddedFiles inp.languages inp.after_commit inp.addedFiles
      (processModifiedFiles inp.languages inp.before_commit inp.after_commit alOf
        inp.modifiedFiles db1.elements).els).els
    (processAddedFiles inp.languages inp.after_commit inp.addedFiles
      (processModifiedFiles inp.languages inp.before_commit inp.after_commit alOf
        inp.modifiedFiles db2.elements).els).els
  simp only [analyze_repo_changes]
  rw [hm.1, hm.2.1, hm.2.2, ha, hd]

/-! ## Provenance of the classified elements -/

theorem classifyAfterItems_added_mem (ac : String) (bmap : List (String × CodeElement)) :
    ∀ (items : List (String × CodeElement)) (els : List (String × ElementRecord))
      (e : CodeElement),
      e ∈ (classifyAfterItems ac bmap items els).added → e ∈ items.map Prod.snd := by
  intro items
  induction items with
  | nil =>
    intro els e h
    simp [classifyAfterItems] at h
  | cons hd rest ih =>
    intro els e h
    obtain ⟨element_id, a⟩ := hd
    rw [List.map_cons]
    cases hb : dictGet? bmap element_id with
    | some b =>
      by_cases hc : b.code = a.code
      · exact List.mem_cons_of_mem _ (ih els e (by simpa [classifyAfterItems, hb, hc] using h))
      · exact List.mem_cons_of_mem _ (ih _ e (by simpa [classifyAfterItems, hb, hc] using h))
    | none =>
      have h2 : e = a ∨ e ∈ (classifyAfterItems ac bmap rest
          (dictInsert els element_id (addedRecord a ac))).added := by
        simpa [classifyAfterItems, hb] using h
      rcases h2 with h2 | h2
      · exact h2 ▸ List.mem_cons_self _ _
      · exact List.mem_cons_of_mem _ (ih _ e h2)

theorem classifyAfterItems_modified_mem (ac : String) (bmap : List (String × CodeElement)) :
    ∀ (items : List (String × CodeElement)) (els : List (String × ElementRecord))
      (e : CodeElement),
      e ∈ (classifyAfterItems ac bmap items els).modified → e ∈ items.map Prod.snd := by
  intro items
  induction items with
  | nil =>
    intro els e h
    simp [classifyAfterItems] at h
  | cons hd rest ih =>
    intro els e h
    obtain ⟨element_id, a⟩ := hd
    rw [List.map_cons]
    cases hb : dictGet? bmap element_id with
    | some b =>
      by_cases hc : b.code = a.code
      · exact List.mem_cons_of_mem _ (ih els e (by simpa [classifyAfterItems, hb, hc] using h))
      · have h2 : e = a ∨ e ∈ (classifyAfterItems ac bmap rest
            (dictInsert els element_id (modifiedRecord a ac))).modified := by
          simpa [classifyAfterItems, hb, hc] using h
        rcases h2 with h2 | h2
        · exact h2 ▸ List.mem_cons_self _ _
        · exact List.mem_cons_of_mem _ (ih _ e h2)
    | none =>
      exact List.mem_cons_of_mem _ (ih _ e (by simpa [classifyAfterItems, hb] using h))

theorem classifyDeletedItems_deleted_mem (ac : String) (amap : List (String × CodeElement)) :
    ∀ (items : List (String × CodeElement)) (els : List (String × ElementRecord))
      (e : CodeElement),
      e ∈ (classifyDeletedItems ac amap items els).deleted → e ∈ items.map Prod.snd := by
  intro items
  induction items with
  | nil =>
    intro els e h
    simp [classifyDeletedItems] at h
  | cons hd rest ih =>
    intro els e h
    obtain ⟨element_id, b⟩ := hd
    rw [List.map_cons]
    by_cases hs : (dictGet? amap element_id).isSome = true
    · exact List.mem_cons_of_mem _ (ih els e (by simpa [classifyDeletedItems, hs] using h))
    · have h2 : e = b ∨ e ∈ (classifyDeletedItems ac amap rest
          (markDeleted els element_id ac)).deleted := by
        simpa [classifyDeletedItems, hs] using h
      rcases h2 with h2 | h2
      · exact h2 ▸ List.mem_cons_self _ _
      · exact List.mem_cons_of_mem _ (ih _ e h2)

theorem buildMap_values_sub (es : List CodeElement) (e : CodeElement)
    (h : e ∈ (buildMap es).map Prod.snd) : e ∈ es := by
  obtain ⟨q, hq, he⟩ := List.mem_map.mp h
  exact he ▸ (buildMap_mem es q hq).2

/-! ## Identities already paired with equal code are left untouched -/

theorem classifyAfterItems_skip (ac : String) (bmap : List (String × CodeElement)) (id : String) :
    ∀ (items : List (String × CodeElement)) (els : List (String × ElementRecord)),
      (∀ q ∈ items, q.1 = _generate_element_id q.2) →
      (items.map Prod.fst).Nodup →
      (∀ a', (id, a') ∈ items → ∃ b, dictGet? bmap id = some b ∧ b.code = a'.code) →
      (∀ e ∈ (classifyAfterItems ac bmap items els).added, _generate_element_id e ≠ id) ∧
      (∀ e ∈ (classifyAfterItems ac bmap items els).modified, _generate_element_id e ≠ id) ∧
      dictGet? (classifyAfterItems ac bmap items els).els id = dictGet? els id := by
  intro items
  induction items with
  | nil =>
    intro els _ _ _
    exact ⟨by simp [classifyAfterItems], by simp [classifyAfterItems], rfl⟩
  | cons hd rest ih =>
    intro els hgen hnd hskip
    obtain ⟨element_id, a⟩ := hd
    have hgenh : element_id = _generate_element_id a := hgen _ (List.mem_cons_self _ _)
    rw [List.map_cons, List.nodup_cons] at hnd
    have hgenr : ∀ q ∈ rest, q.1 = _generate_element_id q.2 :=
      fun q hq => hgen q (List.mem_cons_of_mem _ hq)
    have hskipr : ∀ a', (id, a') ∈ rest → ∃ b, dictGet? bmap id = some b ∧ b.code = a'.code :=
      fun a' ha' => hskip a' (List.mem_cons_of_mem _ ha')
    by_cases hid : element_id = id
    · obtain ⟨b, hb, hbc⟩ := hskip a (hid ▸ List.mem_cons_self _ _)
      have hb' : dictGet? bmap element_id = some b := hid ▸ hb
      have hr := ih els hgenr hnd.2 hskipr
      refine ⟨?_, ?_, ?_⟩
      · intro e he
        exact hr.1 e (by simpa [classifyAfterItems, hb', hbc] using he)
      · intro e he
        exact hr.2.1 e (by simpa [classifyAfterItems, hb', hbc] using he)
      · have : (classifyAfterItems ac bmap ((element_id, a) :: rest) els).els =
            (classifyAfterItems ac bmap rest els).els := by
          simp [classifyAfterItems, hb', hbc]
        rw [this, hr.2.2]
    · cases hb : dictGet? bmap element_id with
      | some b =>
        by_cases hc : b.code = a.code
        · have hr := ih els hgenr hnd.2 hskipr
          refine ⟨?_, ?_, ?_⟩
          · intro e he
            exact hr.1 e (by simpa [classifyAfterItems, hb, hc] using he)
          · intro e he
            exact hr.2.1 e (by simpa [classifyAfterItems, hb, hc] using he)
          · have heq : (classifyAfterItems ac bmap ((element_id, a) :: rest) els).els =
                (classifyAfterItems ac bmap rest els).els := by
              simp [classifyAfterItems, hb, hc]
            rw [heq, hr.2.2]
        · have hr := ih (dictInsert els element_id (modifiedRecord a ac)) hgenr hnd.2 hskipr
          refine ⟨?_, ?_, ?_⟩
          · intro e he
            exact hr.1 e (by simpa [classifyAfterItems, hb, hc] using he)
          · intro e he
            have h2 : e = a ∨ e ∈ (classifyAfterItems ac bmap rest
                (dictInsert els element_id (modifiedRecord a ac))).modified := by
              simpa [classifyAfterItems, hb, hc] using he
            rcases h2 with h2 | h2
            · subst h2
              exact fun hcontra => hid (hgenh.trans hcontra)
            · exact hr.2.1 e h2
          · have heq : (classifyAfterItems ac bmap ((element_id, a) :: rest) els).els =
                (classifyAfterItems ac bmap rest
                  (dictInsert els element_id (modifiedRecord a ac))).els := by
              simp [classifyAfterItems, hb, hc]
            rw [heq, hr.2.2, dictGet?_insert]
            simp [hid]
      | none =>
        have hr := ih (dictInsert els element_id (addedRecord a ac)) hgenr hnd.2 hskipr
        refine ⟨?_, ?_, ?_⟩
        · intro e he
          have h2 : e = a ∨ e ∈ (classifyAfterItems ac bmap rest
              (dictInsert els element_id (addedRecord a ac))).added := by
            simpa [classifyAfterItems, hb] using he
          rcases h2 with h2 | h2
          · subst h2
            exact fun hcontra => hid (hgenh.trans hcontra)
          · exact hr.1 e h2
        · intro e he
          exact hr.2.1 e (by simpa [classifyAfterItems, hb] using he)
        · have heq : (classifyAfterItems ac bmap ((element_id, a) :: rest) els).els =
              (classifyAfterItems ac bmap rest
                (dictInsert els element_id (addedRecord a ac))).els := by
            simp [classifyAfterItems, hb]
          rw [heq, hr.2.2, dictGet?_insert]
          simp [hid]

theorem classifyDeletedItems_skip (ac : String) (amap : List (String × CodeElement)) (id : String)
    (hin : (dictGet? amap id).isSome = true) :
    ∀ (items : List (String × CodeElement)) (els : List (String × ElementRecord)),
      (∀ q ∈ items, q.1 = _generate_element_id q.2) →
      (∀ e ∈ (classifyDeletedItems ac amap items els).deleted, _generate_element_id e ≠ id) ∧
      dictGet? (classifyDeletedItems ac amap items els).els id = dictGet? els id := by
  intro items
  induction items with
  | nil =>
    intro els _
    exact ⟨by simp [classifyDeletedItems], rfl⟩
  | cons hd rest ih =>
    intro els hgen
    obtain ⟨element_id, b⟩ := hd
    have hgenh : element_id = _generate_element_id b := hgen _ (List.mem_cons_self _ _)
    have hgenr : ∀ q ∈ rest, q.1 = _generate_element_id q.2 :=
      fun q hq => hgen q (List.mem_cons_of_mem _ hq)
    by_cases hs : (dictGet? amap element_id).isSome = true
    · have hr := ih els hgenr
      refine ⟨?_, ?_⟩
      · intro e he
        exact hr.1 e (by simpa [classifyDeletedItems, hs] using he)
      · have heq : (classifyDeletedItems ac amap ((element_id, b) :: rest) els).els =
            (classifyDeletedItems ac amap rest els).els := by
          simp [classifyDeletedItems, hs]
        rw [heq, hr.2]
    · have hid : element_id ≠ id := fun h => hs (h ▸ hin)
      have hr := ih (markDeleted els element_id ac) hgenr
      refine ⟨?_, ?_⟩
      · intro e he
        have h2 : e = b ∨ e ∈ (classifyDeletedItems ac amap rest
            (markDeleted els element_id ac)).deleted := by
          simpa [classifyDeletedItems, hs] using he
        rcases h2 with h2 | h2
        · subst h2
          exact fun hcontra => hid (hgenh.trans hcontra)
        · exact hr.1 e h2
      · have heq : (classifyDeletedItems ac amap ((element_id, b) :: rest) els).els =
            (classifyDeletedItems ac amap rest (markDeleted els element_id ac)).els := by
          simp [classifyDeletedItems, hs]
        rw [heq, hr.2, dictGet?_markDeleted]
        simp [hid]

/-! ## The upserts store exactly the fresh record literal -/

theorem classifyAfterItems_els_notmem (ac : String) (bmap : List (String × CodeElement)) :
    ∀ (items : List (String × CodeElement)) (els : List (String × ElementRecord)) (id : String),
      id ∉ items.map Prod.fst →
      dictGet? (classifyAfterItems ac bmap items els).els id = dictGet? els id := by
  intro items
  induction items with
  | nil => exact fun els id _ => rfl
  | cons hd rest ih =>
    intro els id hnot
    obtain ⟨element_id, a⟩ := hd
    rw [List.map_cons] at hnot
    have hid : element_id ≠ id := fun h => hnot (h ▸ List.mem_cons_self _ _)
    have hnotr : id ∉ rest.map Prod.fst := fun h => hnot (List.mem_cons_of_mem _ h)
    cases hb : dictGet? bmap element_id with
    | some b =>
      by_cases hc : b.code = a.code
      · have heq : (classifyAfterItems ac bmap ((element_id, a) :: rest) els).els =
            (classifyAfterItems ac bmap rest els).els := by
          simp [classifyAfterItems, hb, hc]
        rw [heq, ih els id hnotr]
      · have heq : (classifyAfterItems ac bmap ((element_id, a) :: rest) els).els =
            (classifyAfterItems ac bmap rest
              (dictInsert els element_id (modifiedRecord a ac))).els := by
          simp [classifyAfterItems, hb, hc]
        rw [heq, ih _ id hnotr, dictGet?_insert]
        simp [hid]
    | none =>
      have heq : (classifyAfterItems ac bmap ((element_id, a) :: rest) els).els =
          (classifyAfterItems ac bmap rest
            (dictInsert els element_id (addedRecord a ac))).els := by
        simp [classifyAfterItems, hb]
      rw [heq, ih _ id hnotr, dictGet?_insert]
      simp [hid]

theorem classifyAfterItems_upsert (ac : String) (bmap : List (String × CodeElement)) :
    ∀ (items : List (String × CodeElement)) (els : List (String × ElementRecord))
      (id : String) (a : CodeElement),
      (items.map Prod.fst).Nodup → (id, a) ∈ items →
      (dictGet? bmap id = none →
        dictGet? (classifyAfterItems ac bmap items els).els id = some (addedRecord a ac)) ∧
      (∀ b, dictGet? bmap id = some b → b.code ≠ a.code →
        dictGet? (classifyAfterItems ac bmap items els).els id = some (modifiedRecord a ac)) := by
  intro items
  induction items with
  | nil =>
    intro els id a _ hmem
    simp at hmem
  | cons hd rest ih =>
    intro els id a hnd hmem
    obtain ⟨element_id, x⟩ := hd
    rw [List.map_cons, List.nodup_cons] at hnd
    rcases List.mem_cons.mp hmem with hh | hh
    · have hki : element_id = id := (congrArg Prod.fst hh).symm
      have hxa : x = a := (congrArg Prod.snd hh).symm
      subst hki
      subst hxa
      have hnotr : element_id ∉ rest.map Prod.fst := hnd.1
      constructor
      · intro hb
        have heq : (classifyAfterItems ac bmap ((element_id, x) :: rest) els).els =
            (classifyAfterItems ac bmap rest
              (dictInsert els element_id (addedRecord x ac))).els := by
          simp [classifyAfterItems, hb]
        rw [heq, classifyAfterItems_els_notmem ac bmap rest _ element_id hnotr, dictGet?_insert]
        simp
      · intro b hb hbc
        have heq : (classifyAfterItems ac bmap ((element_id, x) :: rest) els).els =
            (classifyAfterItems ac bmap rest
              (dictInsert els element_id (modifiedRecord x ac))).els := by
          simp [classifyAfterItems, hb, hbc]
        rw [heq, classifyAfterItems_els_notmem ac bmap rest _ element_id hnotr, dictGet?_insert]
        simp
    · cases hb : dictGet? bmap element_id with
      | some b =>
        by_cases hc : b.code = x.code
        · have heq : (classifyAfterItems ac bmap ((element_id, x) :: rest) els).els =
              (classifyAfterItems ac bmap rest els).els := by
            simp [classifyAfterItems, hb, hc]
          rw [heq]
          exact ih els id a hnd.2 hh
        · have heq : (classifyAfterItems ac bmap ((element_id, x) :: rest) els).els =
              (classifyAfterItems ac bmap rest
                (dictInsert els element_id (modifiedRecord x ac))).els := by
            simp [classifyAfterItems, hb, hc]
          rw [heq]
          exact ih _ id a hnd.2 hh
      | none =>
        have heq : (classifyAfterItems ac bmap ((element_id, x) :: rest) els).els =
            (classifyAfterItems ac bmap rest
              (dictInsert els element_id (addedRecord x ac))).els := by
          simp [classifyAfterItems, hb]
        rw [heq]
        exact ih _ id a hnd.2 hh

theorem addElements_els_notmem (ac : String) :
    ∀ (es : List CodeElement) (els : List (String × ElementRecord)) (id : String),
      id ∉ es.map _generate_element_id →
      dictGet? (addElements ac es els).els id = dictGet? els id := by
  intro es
  induction es with
  | nil => exact fun els id _ => rfl
  | cons e es ih =>
    intro els id hnot
    rw [List.map_cons] at hnot
    have hid : _generate_element_id e ≠ id := fun h => hnot (h ▸ List.mem_cons_self _ _)
    have hnotr : id ∉ es.map _generate_element_id := fun h => hnot (List.mem_cons_of_mem _ h)
    have heq : (addElements ac (e :: es) els).els =
        (addElements ac es (dictInsert els (_generate_element_id e) (addedRecord e ac))).els := by
      simp [addElements]
    rw [heq, ih _ id hnotr, dictGet?_insert]
    simp [hid]

theorem addElements_upsert (ac : String) :
    ∀ (es : List CodeElement) (els : List (String × ElementRecord)) (e : CodeElement),
      (es.map _generate_element_id).Nodup → e ∈ es →
      dictGet? (addElements ac es els).els (_generate_element_id e) = some (addedRecord e ac) := by
  intro es
  induction es with
  | nil =>
    intro els e _ hmem
    simp at hmem
  | cons x es ih =>
    intro els e hnd hmem
    rw [List.map_cons, List.nodup_cons] at hnd
    have heq : (addElements ac (x :: es) els).els =
        (addElements ac es (dictInsert els (_generate_element_id x) (addedRecord x ac))).els := by
      simp [addElements]
    rcases List.mem_cons.mp hmem with hh | hh
    · subst hh
      rw [heq, addElements_els_notmem ac es _ (_generate_element_id e) hnd.1, dictGet?_insert]
      simp
    · rw [heq]
      exact ih _ e hnd.2 hh

/-! ## The advisory affected-line set never influences the run -/

theorem processModifiedFile_affected_lines (languages : List String) (bc ac : String)
    (al1 al2 : List Nat) (f : ModifiedFile) (els : List (String × ElementRecord)) :
    processModifiedFile languages bc ac al1 f els = processModifiedFile languages bc ac al2 f els :=
  rfl

theorem processModifiedFiles_affected_lines (languages : List String) (bc ac : String)
    (al1 al2 : String → List Nat) :
    ∀ (fs : List ModifiedFile) (els : List (String × ElementRecord)),
      processModifiedFiles languages bc ac al1 fs els =
        processModifiedFiles languages bc ac al2 fs els := by
  intro fs
  induction fs with
  | nil => exact fun els => rfl
  | cons f fs ih =>
    intro els
    simp only [processModifiedFiles]
    rw [processModifiedFile_affected_lines languages bc ac (al1 f.path) (al2 f.path) f els, ih]

/-! ## String-splitting lemmas for the diff-line parser -/

theorem splitOnChar_not_mem (sep : Char) (l : List Char) (h : sep ∉ l) :
    splitOnChar sep l = [l] := by
  induction l with
  | nil => rfl
  | cons c rest ih =>
    rw [List.mem_cons] at h
    push_neg at h
    have hc : ¬c = sep := fun hh => h.1 hh.symm
    simp only [splitOnChar, hc, if_false, ih h.2]

theorem splitOnChar_append (sep : Char) (l1 l2 : List Char) (h : sep ∉ l1) :
    splitOnChar sep (l1 ++ sep :: l2) = l1 :: splitOnChar sep l2 := by
  induction l1 with
  | nil => simp [splitOnChar]
  | cons c rest ih =>
    rw [List.mem_cons] at h
    push_neg at h
    have hc : ¬c = sep := fun hh => h.1 hh.symm
    simp only [List.cons_append, splitOnChar, hc, if_false, List.append_eq, ih h.2]

theorem splitTab_three (status old new : List Char)
    (h1 : '\t' ∉ status) (h2 : '\t' ∉ old) (h3 : '\t' ∉ new) :
    splitTab (String.mk (status ++ '\t' :: (old ++ '\t' :: new))) =
      [String.mk status, String.mk old, String.mk new] := by
  simp only [splitTab]
  rw [splitOnChar_append _ _ _ h1, splitOnChar_append _ _ _ h2, splitOnChar_not_mem _ _ h3]
  rfl

theorem uniqueStr_ne_of_path_ne (e : CodeElement) (p q : String) (hne : p ≠ q) :
    uniqueStr { e with file_path := p } ≠ uniqueStr { e with file_path := q } := by
  intro hc
  apply hne
  have hd := congrArg String.data hc
  simp only [uniqueStr, relpathFromRepo, String.data_append, List.append_assoc] at hd
  have hpq : p.data = q.data := List.append_cancel_right hd
  exact congrArg String.mk hpq

/-! ## Claims -/

/-- C3.  Identity stability: `_generate_element_id` equals the 128-bit MD5 hex
digest of the concatenation `"{relpath}:{name}:{kind}"` with the fixed `":"`
separator, and the digest depends only on the element's `file_path`, `name`
and `type` — never on its source text, line numbers or revision.  As a Lean
function it is pure and deterministic, so repeated calls agree by
construction. -/
theorem identity_stability :
    (∀ e : CodeElement, _generate_element_id e =
      md5hex (relpathFromRepo e.file_path ++ ":" ++ e.name ++ ":" ++ e.type)) ∧
    (∀ e1 e2 : CodeElement, e1.file_path = e2.file_path → e1.name = e2.name →
      e1.type = e2.type → _generate_element_id e1 = _generate_element_id e2) := by
  constructor
  · intro e
    rfl
  · intro e1 e2 h1 h2 h3
    simp [_generate_element_id, uniqueStr, relpathFromRepo, h1, h2, h3]

/-- Witness for C3: two elements sharing path, name and kind but differing in
body and line numbers receive the same identity. -/
theorem identity_stability_witness :
    _generate_element_id ⟨"function", "foo", 1, 2, "def foo(): return 1", "a.py"⟩ =
      _generate_element_id ⟨"function", "foo", 10, 20, "def foo(): return 99", "a.py"⟩ :=
  identity_stability.2 ⟨"function", "foo", 1, 2, "def foo(): return 1", "a.py"⟩
    ⟨"function", "foo", 10, 20, "def foo(): return 99", "a.py"⟩ rfl rfl rfl

/-- C6.  In the identity-to-element map built for a file's parse list, a
colliding identity is bound to the element occurring later in parse order:
lookup returns the last element of the list bearing that identity. -/
theorem later_element_wins (es : List CodeElement) (id : String) :
    dictGet? (buildMap es) id = es.reverse.find? fun e => _generate_element_id e == id := by
  have h := dictGet?_foldl_insert es [] id
  rw [show dictGet? ([] : List (String × CodeElement)) id = none from rfl] at h
  simp only [buildMap]
  cases hf : es.reverse.find? fun e => _generate_element_id e == id with
  | none =>
    rw [h, hf]
    rfl
  | some x =>
    rw [h, hf]
    rfl

/-- C2.  The run's entire output — report and saved database — is identical
for any two values of the advisory per-file affected-line sets: the source
computes `_get_affected_lines` per modified file, sets `is_affected = True`
unconditionally, and never reads either again. -/
theorem affected_lines_immaterial (inp : RunInput) (al1 al2 : String → List Nat)
    (db : Database) :
    analyze_repo_changes inp al1 db = analyze_repo_changes inp al2 db := by
  simp only [analyze_repo_changes]
  rw [processModifiedFiles_affected_lines inp.languages inp.before_commit inp.after_commit
    al1 al2 inp.modifiedFiles db.elements]

/-- C7.  Additive monotonicity: a run never removes a database entry.  The
reported `stats.total_elements` equals the size of the saved database, is at
least the size of the loaded database, and every identity present before the
run is still present after it (deletion only annotates `deleted_at`). -/
theorem additive_monotonicity (inp : RunInput) (alOf : String → List Nat) (db : Database) :
    (analyze_repo_changes inp alOf db).1.stats.total_elements =
      (analyze_repo_changes inp alOf db).2.elements.length ∧
    db.elements.length ≤ (analyze_repo_changes inp alOf db).1.stats.total_elements ∧
    ∀ id, (dictGet? db.elements id).isSome = true →
      (dictGet? (analyze_repo_changes inp alOf db).2.elements id).isSome = true := by
  have hg := analyze_grows inp alOf db
  refine ⟨rfl, ?_, hg.2⟩
  exact hg.1

/-- Witness for C7: a pre-existing identity survives a concrete run. -/
theorem additive_monotonicity_witness :
    (dictGet?
        (analyze_repo_changes ⟨"b", "c", [], [], [], ["python"], "repo", "t"⟩ noLines
          ⟨[("k", ⟨"function", "f", "a.py", "pass", some "r0", none, none⟩)], none⟩).2.elements
        "k").isSome = true :=
  (additive_monotonicity ⟨"b", "c", [], [], [], ["python"], "repo", "t"⟩ noLines
    ⟨[("k", ⟨"function", "f", "a.py", "pass", some "r0", none, none⟩)], none⟩).2.2
    "k" (by decide)

/-- C8.  Unsupported-file inertness: a changed file whose extension maps to no
supported language contributes no element to any classification list and
leaves the database untouched, whether the file was modified, added or
deleted. -/
theorem unsupported_file_inert (languages : List String) (bc ac : String) (al : List Nat)
    (path : String) (bes aes es : List CodeElement) (els : List (String × ElementRecord))
    (h : _get_file_language path = none) :
    processModifiedFile languages bc ac al ⟨path, bes, aes⟩ els = ⟨[], [], [], els⟩ ∧
    processAddedFile languages ac ⟨path, es⟩ els = ⟨[], els⟩ ∧
    processDeletedFile languages ac ⟨path, es⟩ els = ⟨[], els⟩ := by
  refine ⟨?_, ?_, ?_⟩
  · simp [processModifiedFile, h]
  · simp [processAddedFile, h]
  · simp [processDeletedFile, h]

/-- Witness for C8: a `.txt` file is inert to the added-files pass even though
it parses to an element list. -/
theorem unsupported_file_inert_witness :
    processAddedFile ["python"] "c"
        ⟨"notes.txt", [⟨"function", "f", 1, 1, "x", "notes.txt"⟩]⟩ [] = ⟨[], []⟩ :=
  (unsupported_file_inert ["python"] "b" "c" [] "notes.txt" [] []
    [⟨"function", "f", 1, 1, "x", "notes.txt"⟩] [] (by decide)).2.1

/-- Counterexample to C1 as stated.  One function body changed between
`before` and `after`; the first run is performed, its database is persisted,
and the classifier is run a second time over the same range with unchanged
file contents: the second run's ChangeSet still lists the modified element —
it is not empty.  Classification compares the two snapshots only and never
consults the database, so a second identical run reproduces the first
report. -/
theorem no_op_idempotence_counterexample :
    (analyze_repo_changes oneEditInput noLines
        (analyze_repo_changes oneEditInput noLines emptyDb).2).1.affected_elements.modified ≠
      [] := by decide

/-- C1 (amended).  Running the classifier a second time over the same
(before, after) range with unchanged file contents yields exactly the same
ChangeSet as the first run, whatever database state the first run persisted:
the ChangeSet is independent of the database, so the second run's ChangeSet is
empty only when the first run's already was. -/
theorem no_op_idempotence_amended (inp : RunInput) (alOf : String → List Nat) (db : Database) :
    (analyze_repo_changes inp alOf (analyze_repo_changes inp alOf db).2).1.affected_elements =
      (analyze_repo_changes inp alOf db).1.affected_elements :=
  changeset_db_indep inp alOf (analyze_repo_changes inp alOf db).2 db

/-- C4.  Unchanged-body stability: an identity present in both snapshot maps
of a modified file with byte-identical `code` appears in none of the three
classification lists of that file's pass, and the pass leaves its database
record exactly as it was. -/
theorem unchanged_body_stability (languages : List String) (bc ac : String) (al : List Nat)
    (f : ModifiedFile) (els : List (String × ElementRecord)) (id : String) (b a : CodeElement)
    (hb : dictGet? (buildMap f.beforeElements) id = some b)
    (ha : dictGet? (buildMap f.afterElements) id = some a)
    (hcode : b.code = a.code) :
    (∀ e ∈ (processModifiedFile languages bc ac al f els).added, _generate_element_id e ≠ id) ∧
    (∀ e ∈ (processModifiedFile languages bc ac al f els).modified,
      _generate_element_id e ≠ id) ∧
    (∀ e ∈ (processModifiedFile languages bc ac al f els).deleted,
      _generate_element_id e ≠ id) ∧
    dictGet? (processModifiedFile languages bc ac al f els).els id = dictGet? els id := by
  cases hl : _get_file_language f.path with
  | none =>
    refine ⟨?_, ?_, ?_, ?_⟩ <;> simp [processModifiedFile, hl]
  | some lang =>
    by_cases hm : lang ∈ languages
    · have hgen_a : ∀ q ∈ buildMap f.afterElements, q.1 = _generate_element_id q.2 :=
        fun q hq => (buildMap_mem f.afterElements q hq).1
      have hnd_a := buildMap_keys_nodup f.afterElements
      have hskip : ∀ a', (id, a') ∈ buildMap f.afterElements →
          ∃ b0, dictGet? (buildMap f.beforeElements) id = some b0 ∧ b0.code = a'.code := by
        intro a' ha'
        have hsome : dictGet? (buildMap f.afterElements) id = some a' :=
          mem_dictGet? _ _ _ hnd_a ha'
        have haa : a' = a := Option.some.inj (hsome.symm.trans ha)
        exact ⟨b, hb, haa ▸ hcode⟩
      have h1 := classifyAfterItems_skip ac (buildMap f.beforeElements) id
        (buildMap f.afterElements) els hgen_a hnd_a hskip
      have hins : (dictGet? (buildMap f.afterElements) id).isSome = true := by
        rw [ha]
        rfl
      have hgen_b : ∀ q ∈ buildMap f.beforeElements, q.1 = _generate_element_id q.2 :=
        fun q hq => (buildMap_mem f.beforeElements q hq).1
      have h2 := classifyDeletedItems_skip ac (buildMap f.afterElements) id hins
        (buildMap f.beforeElements)
        (classifyAfterItems ac (buildMap f.beforeElements) (buildMap f.afterElements) els).els
        hgen_b
      refine ⟨?_, ?_, ?_, ?_⟩
      · intro e he
        exact h1.1 e (by simpa [processModifiedFile, hl, hm] using he)
      · intro e he
        exact h1.2.1 e (by simpa [processModifiedFile, hl, hm] using he)
      · intro e he
        exact h2.1 e (by simpa [processModifiedFile, hl, hm] using he)
      · have heq : (processModifiedFile languages bc ac al f els).els =
            (classifyDeletedItems ac (buildMap f.afterElements) (buildMap f.beforeElements)
              (classifyAfterItems ac (buildMap f.beforeElements) (buildMap f.afterElements)
                els).els).els := by
          simp [processModifiedFile, hl, hm]
        rw [heq, h2.2, h1.2.2]
    · refine ⟨?_, ?_, ?_, ?_⟩ <;> simp [processModifiedFile, hl, hm]

/-- Witness for C4: `foo` moved lines but kept its body; its identity is
classified nowhere and its (absent) record stays absent. -/
theorem unchanged_body_stability_witness :
    dictGet? (processModifiedFile ["python"] "b" "c" [] sameBodyFile []).els fooId =
      dictGet? [] fooId :=
  (unchanged_body_stability ["python"] "b" "c" [] sameBodyFile [] fooId
    ⟨"function", "foo", 1, 2, "def foo(): pass", "a.py"⟩
    ⟨"function", "foo", 5, 6, "def foo(): pass", "a.py"⟩
    (by decide) (by decide) rfl).2.2.2

/-- C9.  Snapshot provenance: in a modified-file pass every added or modified
element comes from the after-snapshot parse and every deleted element (with
its before source text and lines) from the before-snapshot parse; an
added-file pass emits exactly the working-tree elements and a deleted-file
pass exactly the before-revision elements. -/
theorem snapshot_provenance (languages : List String) (bc ac : String) (al : List Nat)
    (f : ModifiedFile) (g : AddedFile) (d : DeletedFile)
    (els : List (String × ElementRecord)) :
    (∀ e ∈ (processModifiedFile languages bc ac al f els).added, e ∈ f.afterElements) ∧
    (∀ e ∈ (processModifiedFile languages bc ac al f els).modified, e ∈ f.afterElements) ∧
    (∀ e ∈ (processModifiedFile languages bc ac al f els).deleted, e ∈ f.beforeElements) ∧
    (∀ e ∈ (processAddedFile languages ac g els).elems, e ∈ g.elements) ∧
    (∀ e ∈ (processDeletedFile languages ac d els).elems, e ∈ d.elements) := by
  refine ⟨?_, ?_, ?_, ?_, ?_⟩
  · intro e he
    cases hl : _get_file_language f.path with
    | none => simp [processModifiedFile, hl] at he
    | some lang =>
      by_cases hm : lang ∈ languages
      · have h2 : e ∈ (classifyAfterItems ac (buildMap f.beforeElements)
            (buildMap f.afterElements) els).added := by
          simpa [processModifiedFile, hl, hm] using he
        exact buildMap_values_sub f.afterElements e
          (classifyAfterItems_added_mem ac (buildMap f.beforeElements)
            (buildMap f.afterElements) els e h2)
      · simp [processModifiedFile, hl, hm] at he
  · intro e he
    cases hl : _get_file_language f.path with
    | none => simp [processModifiedFile, hl] at he
    | some lang =>
      by_cases hm : lang ∈ languages
      · have h2 : e ∈ (classifyAfterItems ac (buildMap f.beforeElements)
            (buildMap f.afterElements) els).modified := by
          simpa [processModifiedFile, hl, hm] using he
        exact buildMap_values_sub f.afterElements e
          (classifyAfterItems_modified_mem ac (buildMap f.beforeElements)
            (buildMap f.afterElements) els e h2)
      · simp [processModifiedFile, hl, hm] at he
  · intro e he
    cases hl : _get_file_language f.path with
    | none => simp [processModifiedFile, hl] at he
    | some lang =>
      by_cases hm : lang ∈ languages
      · have h2 : e ∈ (classifyDeletedItems ac (buildMap f.afterElements)
            (buildMap f.beforeElements)
            (classifyAfterItems ac (buildMap f.beforeElements) (buildMap f.afterElements)
              els).els).deleted := by
          simpa [processModifiedFile, hl, hm] using he
        exact buildMap_values_sub f.beforeElements e
          (classifyDeletedItems_deleted_mem ac (buildMap f.afterElements)
            (buildMap f.beforeElements) _ e h2)
      · simp [processModifiedFile, hl, hm] at he
  · intro e he
    cases hl : _get_file_language g.path with
    | none => simp [processAddedFile, hl] at he
    | some lang =>
      by_cases hm : lang ∈ languages
      · have h2 : e ∈ (addElements ac g.elements els).elems := by
          simpa [processAddedFile, hl, hm] using he
        rwa [addElements_elems ac g.elements els] at h2
      · simp [processAddedFile, hl, hm] at he
  · intro e he
    cases hl : _get_file_language d.path with
    | none => simp [processDeletedFile, hl] at he
    | some lang =>
      by_cases hm : lang ∈ languages
      · have h2 : e ∈ (deleteElements ac d.elements els).elems := by
          simpa [processDeletedFile, hl, hm] using he
        rwa [deleteElements_elems ac d.elements els] at h2
      · simp [processDeletedFile, hl, hm] at he

/-- Witness for C9: a concrete added-file pass emits an element of its
working-tree parse. -/
theorem snapshot_provenance_witness :
    (⟨"function", "foo", 1, 2, "def foo(): pass", "b.py"⟩ : CodeElement) ∈
      ([⟨"function", "foo", 1, 2, "def foo(): pass", "b.py"⟩] : List CodeElement) :=
  (snapshot_provenance ["python"] "b" "c" [] ⟨"a.py", [], []⟩
    ⟨"b.py", [⟨"function", "foo", 1, 2, "def foo(): pass", "b.py"⟩]⟩ ⟨"c.py", []⟩ []).2.2.2.1
    ⟨"function", "foo", 1, 2, "def foo(): pass", "b.py"⟩ (by decide)

/-- C10.  Upserts replace the stored record wholesale: the fresh added record
carries no `last_modified` or `deleted_at`, the fresh modified record no
`added_at` or `deleted_at`; after the pass the identity's record is exactly
the fresh literal, whatever record (with whatever annotations) the loaded
database held for it. -/
theorem upsert_replaces_wholesale :
    (∀ (e : CodeElement) (ac : String),
      (addedRecord e ac).last_modified = none ∧ (addedRecord e ac).deleted_at = none ∧
      (modifiedRecord e ac).added_at = none ∧ (modifiedRecord e ac).deleted_at = none) ∧
    (∀ (languages : List String) (lang bc ac : String) (al : List Nat) (f : ModifiedFile)
      (els : List (String × ElementRecord)) (id : String) (a : CodeElement),
      _get_file_language f.path = some lang → lang ∈ languages →
      dictGet? (buildMap f.afterElements) id = some a →
      (dictGet? (buildMap f.beforeElements) id = none →
        dictGet? (processModifiedFile languages bc ac al f els).els id =
          some (addedRecord a ac)) ∧
      (∀ b, dictGet? (buildMap f.beforeElements) id = some b → b.code ≠ a.code →
        dictGet? (processModifiedFile languages bc ac al f els).els id =
          some (modifiedRecord a ac))) ∧
    (∀ (ac : String) (es : List CodeElement) (els : List (String × ElementRecord))
      (e : CodeElement), (es.map _generate_element_id).Nodup → e ∈ es →
      dictGet? (addElements ac es els).els (_generate_element_id e) =
        some (addedRecord e ac)) := by
  refine ⟨?_, ?_, ?_⟩
  · intro e ac
    exact ⟨rfl, rfl, rfl, rfl⟩
  · intro languages lang bc ac al f els id a hl hm ha
    have hamem : (id, a) ∈ buildMap f.afterElements := dictGet?_mem _ _ _ ha
    have hup := classifyAfterItems_upsert ac (buildMap f.beforeElements)
      (buildMap f.afterElements) els id a (buildMap_keys_nodup f.afterElements) hamem
    have hins : (dictGet? (buildMap f.afterElements) id).isSome = true := by
      rw [ha]
      rfl
    have hpres := (classifyDeletedItems_skip ac (buildMap f.afterElements) id hins
      (buildMap f.beforeElements)
      (classifyAfterItems ac (buildMap f.beforeElements) (buildMap f.afterElements) els).els
      (fun q hq => (buildMap_mem f.beforeElements q hq).1)).2
    have heq : (processModifiedFile languages bc ac al f els).els =
        (classifyDeletedItems ac (buildMap f.afterElements) (buildMap f.beforeElements)
          (classifyAfterItems ac (buildMap f.beforeElements) (buildMap f.afterElements)
            els).els).els := by
      simp [processModifiedFile, hl, hm]
    constructor
    · intro hbnone
      rw [heq, hpres]
      exact hup.1 hbnone
    · intro b hbsome hbc
      rw [heq, hpres]
      exact hup.2 b hbsome hbc
  · intro ac es els e hnd hmem
    exact addElements_upsert ac es els e hnd hmem

/-- Witness for C10: a prior record of `foo` in `b.py` carrying `added_at`,
`last_modified` and `deleted_at` is wholly replaced by the fresh added record
(whose other annotations are `none`). -/
theorem upsert_replaces_wholesale_witness :
    dictGet?
        (addElements "c" [⟨"function", "foo", 1, 2, "def foo(): pass", "b.py"⟩]
          [(md5hex "b.py:foo:function",
            ⟨"function", "foo", "b.py", "old", some "r0", some "r1", some "r2"⟩)]).els
        (_generate_element_id ⟨"function", "foo", 1, 2, "def foo(): pass", "b.py"⟩) =
      some (addedRecord ⟨"function", "foo", 1, 2, "def foo(): pass", "b.py"⟩ "c") :=
  upsert_replaces_wholesale.2.2 "c" [⟨"function", "foo", 1, 2, "def foo(): pass", "b.py"⟩]
    [(md5hex "b.py:foo:function",
      ⟨"function", "foo", "b.py", "old", some "r0", some "r1", some "r2"⟩)]
    ⟨"function", "foo", 1, 2, "def foo(): pass", "b.py"⟩ (by decide) (by decide)

/-- C5.  Rename blindness: an `R` line of `git diff --name-status` routes the
old path into the deleted-files list and the new path into the added-files
list, and the resulting run classifies every element of the renamed file once
as deleted (under the old relative path) and once as added (under the new
relative path) with identical source text — never as modified.  The two
identity strings always differ; the identities themselves differ whenever MD5
maps the two distinct strings to distinct digests, which is the spec's own
collision-resistance assumption. -/
theorem rename_blindness (bc ac oldPath newPath oldRel newRel : String)
    (es : List CodeElement) (languages : List String) (l1 l2 repo ts : String)
    (alOf : String → List Nat) (db : Database)
    (h1 : _get_file_language oldPath = some l1) (h1m : l1 ∈ languages)
    (h2 : _get_file_language newPath = some l2) (h2m : l2 ∈ languages)
    (hrel : ∀ e ∈ es, e.file_path = oldRel) (hne : oldRel ≠ newRel) :
    (analyze_repo_changes (renameInput bc ac oldPath newPath newRel es languages repo ts)
        alOf db).1.affected_elements.modified = [] ∧
    (analyze_repo_changes (renameInput bc ac oldPath newPath newRel es languages repo ts)
        alOf db).1.affected_elements.added =
      es.map (fun e => { e with file_path := newRel }) ∧
    (analyze_repo_changes (renameInput bc ac oldPath newPath newRel es languages repo ts)
        alOf db).1.affected_elements.deleted = es ∧
    (analyze_repo_changes (renameInput bc ac oldPath newPath newRel es languages repo ts)
        alOf db).1.affected_elements.added.length = es.length ∧
    (analyze_repo_changes (renameInput bc ac oldPath newPath newRel es languages repo ts)
        alOf db).1.affected_elements.deleted.length = es.length ∧
    (∀ e ∈ es, ({ e with file_path := newRel } : CodeElement).code = e.code) ∧
    (∀ e ∈ es, uniqueStr { e with file_path := newRel } ≠ uniqueStr e) ∧
    (∀ e ∈ es, md5hex (uniqueStr { e with file_path := newRel }) ≠ md5hex (uniqueStr e) →
      _generate_element_id { e with file_path := newRel } ≠ _generate_element_id e) ∧
    (∀ (rp : String) (statusChars oldChars newChars : List Char),
      '\t' ∉ statusChars → '\t' ∉ oldChars → '\t' ∉ newChars →
      (String.mk statusChars == "M") = false → (String.mk statusChars == "A") = false →
      (String.mk statusChars == "D") = false → startsWithR (String.mk statusChars) = true →
      _get_affected_files rp true
          [String.mk (statusChars ++ '\t' :: (oldChars ++ '\t' :: newChars))] =
        ⟨[], [pathJoin rp (String.mk newChars)], [pathJoin rp (String.mk oldChars)]⟩) := by
  have hrunA : (analyze_repo_changes (renameInput bc ac oldPath newPath newRel es languages
      repo ts) alOf db).1.affected_elements.added =
      es.map (fun e => { e with file_path := newRel }) := by
    simp [analyze_repo_changes, renameInput, processModifiedFiles, processAddedFiles,
      processAddedFile, h2, h2m, addElements_elems]
  have hrunM : (analyze_repo_changes (renameInput bc ac oldPath newPath newRel es languages
      repo ts) alOf db).1.affected_elements.modified = [] := by
    simp [analyze_repo_changes, renameInput, processModifiedFiles]
  have hrunD : (analyze_repo_changes (renameInput bc ac oldPath newPath newRel es languages
      repo ts) alOf db).1.affected_elements.deleted = es := by
    simp [analyze_repo_changes, renameInput, processModifiedFiles, processDeletedFiles,
      processDeletedFile, h1, h1m, deleteElements_elems]
  refine ⟨hrunM, hrunA, hrunD, ?_, ?_, ?_, ?_, ?_, ?_⟩
  · rw [hrunA, List.length_map]
  · rw [hrunD]
  · intro e _
    rfl
  · intro e he
    have hfp := hrel e he
    have hee : ({ e with file_path := oldRel } : CodeElement) = e := by
      rw [← hfp]
    have hx := uniqueStr_ne_of_path_ne e newRel oldRel (Ne.symm hne)
    rw [hee] at hx
    exact hx
  · intro e _ hmd
    exact hmd
  · intro rp st old new hst hold hnew hM hA hD hR
    have hsplit := splitTab_three st old new hst hold hnew
    simp only [_get_affected_files, if_true]
    simp [collectAffected, hsplit, hM, hA, hD, hR]

/-- Witness for C5: the concrete rename of `old.py` to `new.py` with one
function yields an empty modified list and two identities whose MD5 digests
really differ. -/
theorem rename_blindness_witness :
    (analyze_repo_changes (renameInput "b" "c" "old.py" "new.py" "new.py"
        [⟨"function", "foo", 1, 2, "def foo(): pass", "old.py"⟩] ["python"] "r" "t") noLines
        emptyDb).1.affected_elements.modified = [] ∧
    _generate_element_id ⟨"function", "foo", 1, 2, "def foo(): pass", "new.py"⟩ ≠
      _generate_element_id ⟨"function", "foo", 1, 2, "def foo(): pass", "old.py"⟩ := by
  have h := rename_blindness "b" "c" "old.py" "new.py" "old.py" "new.py"
    [⟨"function", "foo", 1, 2, "def foo(): pass", "old.py"⟩] ["python"] "python" "python"
    "r" "t" noLines emptyDb (by decide) (by decide) (by decide) (by decide)
    (by decide) (by decide)
  refine ⟨h.1, ?_⟩
  exact h.2.2.2.2.2.2.2.1 ⟨"function", "foo", 1, 2, "def foo(): pass", "old.py"⟩
    (by decide) (by decide)

end CodeChanges
